import Mathlib

/-!
Verification of the news-feed pipeline core: the keyword scorer, the
article filter, the topic classifier, the content-size derivation and the
ranked topic matcher, shallowly embedded from the Python sources
(`src/process/process_data.py`, `src/fetch/fetchers/news_api_fetcher.py`,
`src/persistence/mongo/mongo_database.py`).

Texts are modelled as `List Char`.  Per the design notes of the spec,
ASCII-only semantics are assumed for the word-character class, for
lower-casing, for digits and for whitespace (the Python implementation is
Unicode-aware; the spec fixes the ASCII behaviour as the contract).
-/

namespace NewsFeed

/-- Texts are lists of characters. -/
abbrev Str := List Char

/-- Convert a Lean string literal to our text type. -/
def str (s : String) : Str := s.data

/-! ## Scorer (`_score_keywords` in `process_data.py`)

The Python code builds, for each keyword `term`, the regex
`(?<!\w)<escaped term>(?!\w)` and counts its non-overlapping matches
(`re.findall`) in the lower-cased text.  `re.escape` makes the term a
literal, so a match is an occurrence of the term that is neither
immediately preceded nor immediately followed by a word character. -/

/-- Word character of the regex class `\w` (ASCII contract):
letter, digit or underscore. -/
def isWordChar (c : Char) : Bool := c.isAlpha || c.isDigit || c == '_'

/-- The boundary test applied to the character adjacent to a candidate
match; `none` means the text boundary, which always passes. -/
def okBefore : Option Char → Bool
  | none => true
  | some c => !isWordChar c

/-- Is there a regex match starting at the head of `text`, given that the
character before the head (if any) is `prev`?  Mirrors
`(?<!\w)term(?!\w)` anchored at the current scan position. -/
def matchesAt (term : Str) (prev : Option Char) (text : Str) : Bool :=
  term.isPrefixOf text && okBefore prev && okBefore (text.drop term.length).head?

/-- Count the non-overlapping matches of `term` in `text`, scanning left
to right like `re.findall`: after a match the scan resumes right after
it.  `skip` is the number of characters of the current match still to be
consumed (during which no new match may start), and `prev` is the
character just before the current position. -/
def countAux (term : Str) : Nat → Option Char → Str → Nat
  | _, _, [] => 0
  | Nat.succ k, _, c :: rest => countAux term k (some c) rest
  | 0, prev, c :: rest =>
    if matchesAt term prev (c :: rest) then
      1 + countAux term (term.length - 1) (some c) rest
    else
      countAux term 0 (some c) rest

/-- ASCII lower-casing of a text (Python `str.lower()` on ASCII input). -/
def lowerStr (s : Str) : Str := s.map Char.toLower

/-- `_score_keywords(keywords, text)`: returns 0 for an empty text or an
empty keyword list; otherwise sums, over the non-empty keywords, the
non-overlapping whole-word match counts in the lower-cased text. -/
def score_keywords (keywords : List Str) (text : Str) : Nat :=
  if text = [] ∨ keywords = [] then 0
  else
    (keywords.map (fun term =>
      if term = [] then 0
      else countAux (lowerStr term) 0 none (lowerStr text))).sum

/-! ### Boundary-occurrence specification for the scorer

`boundaryAtP term prev text i` says that `term` occurs in `text` at
position `i` and the occurrence is neither immediately preceded nor
immediately followed by a word character (`prev` plays the role of the
character just before `text`, for scans of suffixes). -/

/-- The character just before position `i` of `text` (`prev` when `i = 0`). -/
def lookBehind (prev : Option Char) (text : Str) (i : Nat) : Option Char :=
  match (text.take i).getLast? with
  | some c => some c
  | none => prev

/-- A whole-word occurrence of `term` at position `i` of `text`. -/
def boundaryAtP (term : Str) (prev : Option Char) (text : Str) (i : Nat) : Bool :=
  term.isPrefixOf (text.drop i) && okBefore (lookBehind prev text i)
    && okBefore (text.drop (i + term.length)).head?

/-- `term` has some whole-word occurrence in `text`. -/
def hasBoundaryOcc (term text : Str) : Prop :=
  ∃ i, boundaryAtP term none text i = true

/-! ## Data model (`ArticleEntry` in `schemas/schemas.py`)

Pydantic defaults: empty strings, `published_at` nullable (`None`),
`content_size` 0, `topics` the empty list.  Timestamps are modelled as
integers; `none` is an absent (`None`/`NaT`) publication date. -/

structure ArticleEntry where
  author : Str := []
  title : Str := []
  description : Str := []
  url : Str := []
  published_at : Option Int := none
  content_head : Str := []
  content_size : Int := 0
  source : Str := []
  topics : List Str := []
deriving DecidableEq, Repr

/-! ## ArticleFilter (`_remove_incomplete_articles`, `_filter_articles`) -/

/-- Python `str.strip()` whitespace class (ASCII contract):
space, tab, newline, carriage return, vertical tab, form feed. -/
def isPySpace (c : Char) : Bool :=
  c == ' ' || c == '\t' || c == '\n' || c == '\r' || c == '\x0b' || c == '\x0c'

/-- Python `str.strip()`: remove leading and trailing whitespace. -/
def pyStrip (s : Str) : Str :=
  ((s.dropWhile isPySpace).reverse.dropWhile isPySpace).reverse

/-- The regex substitution `re.sub(r"<.*?>", "", s)` used by
`_filter_articles` (pandas `str.replace` with `regex=True`).  `.` does
not match a newline, so a `<` that is not followed by a `>` on the same
line is left intact (together with everything scanned after it, none of
which can start a match, because the scanned span contains no `>` before
the blocking newline or the end of the string).  `buf` holds, reversed,
the characters consumed since the pending `<`. -/
def stripGo : Option Str → Str → Str
  | none, [] => []
  | none, c :: rest =>
    if c == '<' then stripGo (some ['<']) rest else c :: stripGo none rest
  | some buf, [] => buf.reverse
  | some buf, c :: rest =>
    if c == '>' then stripGo none rest
    else if c == '\n' then buf.reverse ++ '\n' :: stripGo none rest
    else stripGo (some (c :: buf)) rest

/-- Remove every shortest-match `<...>` span, as the tag scrub does. -/
def stripHtml (s : Str) : Str := stripGo none s

/-- `_remove_incomplete_articles`: `dropna()` (drops the rows whose
`published_at` is absent; the string columns are never null) followed by
one filter per required text column, dropping whitespace-only values. -/
def remove_incomplete_articles (l : List ArticleEntry) : List ArticleEntry :=
  ((((((l.filter (fun a => a.published_at.isSome)).filter
    (fun a => !(pyStrip a.content_head).isEmpty)).filter
    (fun a => !(pyStrip a.title).isEmpty)).filter
    (fun a => !(pyStrip a.author).isEmpty)).filter
    (fun a => !(pyStrip a.description).isEmpty)).filter
    (fun a => !(pyStrip a.url).isEmpty)).filter
    (fun a => !(pyStrip a.source).isEmpty)

/-- The markup scrub `_filter_articles` applies to the retained rows. -/
def scrubMarkup (a : ArticleEntry) : ArticleEntry :=
  { a with content_head := stripHtml a.content_head,
           description := stripHtml a.description,
           title := stripHtml a.title }

/-- `_filter_articles`: drop the rows failing the content-size and
title-length quality gates, then strip markup from `content_head`,
`description` and `title` of the survivors. -/
def filter_articles (minContentSize minTitleSize : Int) (l : List ArticleEntry) :
    List ArticleEntry :=
  ((l.filter (fun a => decide (minContentSize ≤ a.content_size))).filter
    (fun a => decide (minTitleSize ≤ (a.title.length : Int)))).map scrubMarkup

/-- The whole ArticleFilter stage, as `process_data` chains it. -/
def articleFilter (minContentSize minTitleSize : Int) (l : List ArticleEntry) :
    List ArticleEntry :=
  filter_articles minContentSize minTitleSize (remove_incomplete_articles l)

/-- The conjunction of the completeness checks of
`_remove_incomplete_articles`, associated as the nested filters compose. -/
def completeB (a : ArticleEntry) : Bool :=
  !(pyStrip a.source).isEmpty &&
    (!(pyStrip a.url).isEmpty &&
      (!(pyStrip a.description).isEmpty &&
        (!(pyStrip a.author).isEmpty &&
          (!(pyStrip a.title).isEmpty &&
            (!(pyStrip a.content_head).isEmpty && a.published_at.isSome)))))

/-! ## Classifier (`_get_full_text`, `_classify_articles`,
`_df_to_article_entries`)

The topic dictionary (`core/topic_dictionary.py`) is an ordered mapping
from topic name to keyword list; the settings (`score_threshold`,
`get_full_text`) and the network fetch `_fetch_text_from_url` (which
returns `None` on failure) are injected collaborators. -/

abbrev TopicDict := List (Str × List Str)

/-- `get_topics()`: the topic names, in dictionary order. -/
def get_topics (d : TopicDict) : List Str := d.map Prod.fst

/-- `get_keywords(topic)`: dictionary lookup, `[]` when absent. -/
def get_keywords (d : TopicDict) (topic : Str) : List Str :=
  match d.find? (fun p => decide (p.1 = topic)) with
  | some p => p.2
  | none => []

/-- The fallback scoring body `f"{title} {description} {content_head}"`. -/
def fallback_text (a : ArticleEntry) : Str :=
  a.title ++ ' ' :: (a.description ++ ' ' :: a.content_head)

/-- `_get_full_text(row)`: when full-text fetching is disabled the text
is `""`; otherwise it is the fetched page text (`none` on failure).  A
missing or whitespace-only text falls back to title + description +
content head. -/
def get_full_text (getFullText : Bool) (fetch : Str → Option Str) (a : ArticleEntry) : Str :=
  let text : Option Str := if getFullText then fetch a.url else some []
  match text with
  | none => fallback_text a
  | some t => if (pyStrip t).length = 0 then fallback_text a else t

/-- The text actually scored for one article:
`f"{row['title']} {row['full_text']}"` in `_classify_articles`. -/
def scoring_text (getFullText : Bool) (fetch : Str → Option Str) (a : ArticleEntry) : Str :=
  a.title ++ ' ' :: get_full_text getFullText fetch a

/-- The per-topic score column `f"{topic}_score"`. -/
def topic_score (keywords : List Str) (getFullText : Bool) (fetch : Str → Option Str)
    (a : ArticleEntry) : Nat :=
  score_keywords keywords (scoring_text getFullText fetch a)

/-- `_df_to_article_entries` on one row: assign exactly the topics whose
score reaches the threshold; every other field is passed through. -/
def classifyArticle (d : TopicDict) (threshold : Int) (getFullText : Bool)
    (fetch : Str → Option Str) (a : ArticleEntry) : ArticleEntry :=
  { a with topics :=
      (get_topics d).filter (fun t =>
        decide (threshold ≤ (topic_score (get_keywords d t) getFullText fetch a : Int))) }

/-- The classification stage over a batch
(`_classify_articles` + `_df_to_article_entries`). -/
def classifyArticles (d : TopicDict) (threshold : Int) (getFullText : Bool)
    (fetch : Str → Option Str) (l : List ArticleEntry) : List ArticleEntry :=
  l.map (classifyArticle d threshold getFullText fetch)

/-- `process_data(raw_articles)`: empty input short-circuits to `[]`;
otherwise filter then classify. -/
def process_data (d : TopicDict) (threshold minContentSize minTitleSize : Int)
    (getFullText : Bool) (fetch : Str → Option Str)
    (raw : List ArticleEntry) : List ArticleEntry :=
  if raw = [] then []
  else classifyArticles d threshold getFullText fetch
    (articleFilter minContentSize minTitleSize raw)

/-! ## Content-size derivation (`_get_content_size` in
`news_api_fetcher.py`)

`size = len(content_head.encode("utf-8"))`; when the text ends with `]`,
the code additionally parses `content_head.split("[+")[-1].split(" ")[0]`
with `int(...)` and adds the result, ignoring parse failures. -/

/-- UTF-8 byte count of one code point (Python `len(c.encode("utf-8"))`). -/
def utf8Len (c : Char) : Nat :=
  if c.toNat < 128 then 1
  else if c.toNat < 2048 then 2
  else if c.toNat < 65536 then 3
  else 4

/-- UTF-8 byte length of a text. -/
def utf8Length (s : Str) : Nat := (s.map utf8Len).sum

/-- The suffix after the last occurrence of `sep`, scanning left to right
with non-overlapping occurrences, as `s.split(sep)[-1]` computes it.
`best` is the suffix after the last occurrence seen so far (initially the
whole string), `skip` the characters of the current occurrence still to
be consumed. -/
def afterLastGo (sep : Str) : Nat → Str → Str → Str
  | _, best, [] => best
  | Nat.succ k, best, _ :: rest => afterLastGo sep k best rest
  | 0, best, c :: rest =>
    if sep.isPrefixOf (c :: rest) then
      afterLastGo sep (sep.length - 1) ((c :: rest).drop sep.length) rest
    else afterLastGo sep 0 best rest

/-- `s.split(sep)[-1]` for a non-empty separator. -/
def afterLastSep (sep s : Str) : Str := afterLastGo sep 0 s s

/-- Digits of a Python integer literal after the first one: ASCII digits
optionally separated by single underscores (an underscore must sit
between two digits).  The flag records that the previous character was an
underscore, which must be followed by a digit. -/
def parseDigitsGo : Nat → Bool → Str → Option Nat
  | acc, false, [] => some acc
  | _, true, [] => none
  | acc, false, c :: rest =>
    if c.isDigit then parseDigitsGo (10 * acc + (c.toNat - 48)) false rest
    else if c == '_' then parseDigitsGo acc true rest
    else none
  | acc, true, c :: rest =>
    if c.isDigit then parseDigitsGo (10 * acc + (c.toNat - 48)) false rest
    else none

/-- The digits after an explicit sign (which must start with a digit). -/
def parseSignedTail (neg : Bool) : Str → Option Int
  | [] => none
  | d :: rest2 =>
    if d.isDigit then
      (parseDigitsGo (d.toNat - 48) false rest2).map
        (fun n => if neg then -(n : Int) else (n : Int))
    else none

/-- Sign and digits of a stripped Python integer literal. -/
def parseIntCore : Str → Option Int
  | [] => none
  | c :: rest =>
    if c == '-' then parseSignedTail true rest
    else if c == '+' then parseSignedTail false rest
    else if c.isDigit then (parseDigitsGo (c.toNat - 48) false rest).map (fun n => (n : Int))
    else none

/-- Python `int(s)` (base 10, ASCII contract): strip whitespace, optional
sign, non-empty digits with optional single underscores between them;
`none` when the string is not a valid integer literal. -/
def parseIntPy (s : Str) : Option Int := parseIntCore (pyStrip s)

/-- `_get_content_size(content_head)`: the separator of
`split("[+")` is the two-character text `"[+"`. -/
def get_content_size (content_head : Str) : Int :=
  let size : Int := (utf8Length content_head : Int)
  if content_head.getLast? = some ']' then
    match parseIntPy ((afterLastSep ['[', '+'] content_head).takeWhile (fun c => !(c == ' '))) with
    | some n => size + n
    | none => size
  else size

/-- Numeric value of a digit string (most significant digit first). -/
def digitsVal (ds : Str) : Nat := ds.foldl (fun a c => 10 * a + (c.toNat - 48)) 0

/-- Modelled from the spec: the truncation-marker reading of §4.2 — the
value `<digits>` when the text ends with a marker of the exact form
`"[+<digits> chars]"` (non-empty ASCII digits), `none` otherwise.  This
is the claim's predicate, used to compare against the code's behaviour. -/
def truncMarkerValue? (s : Str) : Option Nat :=
  let r := s.reverse
  if (str "]srahc ").isPrefixOf r then
    let r2 := r.drop 7
    let ds := r2.takeWhile Char.isDigit
    if ds.isEmpty then none
    else if (str "+[").isPrefixOf (r2.drop ds.length) then some (digitsVal ds.reverse)
    else none
  else none

/-- Modelled from the spec: the content size as claim C4 states it — the
UTF-8 byte length plus the marker value exactly when a well-formed
trailing marker is present. -/
def claimContentSize (s : Str) : Int :=
  (utf8Length s : Int) + ((truncMarkerValue? s).getD 0 : Nat)

/-! ## RankedMatcher (`get_matching_articles` in `mongo_database.py`)

The corpus is the stored, classified article list; the Mongo query is
modelled as a pure function.  BSON null sorts below every date, and a
range condition on `published_at` never matches a null value. -/

/-- Mongo comparison on nullable dates: null is the least value. -/
def dateLeB : Option Int → Option Int → Bool
  | none, _ => true
  | some _, none => false
  | some x, some y => decide (x ≤ y)

/-- The `$gte`/`$lte` filter built from the optional bounds; a null
`published_at` matches only when no bound is given. -/
def matchesDateRange (fromDate toDate pa : Option Int) : Bool :=
  (match fromDate, pa with
   | none, _ => true
   | some _, none => false
   | some f, some p => decide (f ≤ p)) &&
  (match toDate, pa with
   | none, _ => true
   | some _, none => false
   | some t, some p => decide (p ≤ t))

/-- The `topics: {$in: topics}` condition: some article topic is among
the requested topics. -/
def topicsIntersectB (topics : List Str) (a : ArticleEntry) : Bool :=
  a.topics.any (fun t => decide (t ∈ topics))

/-- `$size` of `$setIntersection` of the article topics with the
requested topics: the number of distinct common topics. -/
def matchCount (topics : List Str) (a : ArticleEntry) : Nat :=
  (a.topics.dedup.filter (fun t => decide (t ∈ topics))).length

/-- `a` may precede `b` when sorting by `published_at` descending. -/
def dateDescR (a b : ArticleEntry) : Prop :=
  dateLeB b.published_at a.published_at = true

/-- `a` may precede `b` when sorting by `match_count` descending with
`published_at` descending as tie-break. -/
def rankDescR (topics : List Str) (a b : ArticleEntry) : Prop :=
  matchCount topics b < matchCount topics a ∨
    (matchCount topics a = matchCount topics b ∧
      dateLeB b.published_at a.published_at = true)

instance : DecidableRel dateDescR := fun a b =>
  decidable_of_iff (dateLeB b.published_at a.published_at = true) Iff.rfl

instance (topics : List Str) : DecidableRel (rankDescR topics) := fun a b =>
  decidable_of_iff (matchCount topics b < matchCount topics a ∨
    (matchCount topics a = matchCount topics b ∧
      dateLeB b.published_at a.published_at = true)) Iff.rfl

instance : IsTotal ArticleEntry dateDescR :=
  ⟨fun a b => by
    unfold dateDescR
    rcases a.published_at with _ | x <;> rcases b.published_at with _ | y <;>
      simp [dateLeB] <;> omega⟩

instance : IsTrans ArticleEntry dateDescR :=
  ⟨fun a b c hab hbc => by
    unfold dateDescR at *
    have hdt : ∀ x y z : Option Int, dateLeB x y = true → dateLeB y z = true →
        dateLeB x z = true := by
      intro x y z hxy hyz
      rcases x with _ | x <;> rcases y with _ | y <;> rcases z with _ | z <;>
        simp_all [dateLeB] <;> omega
    exact hdt _ _ _ hbc hab⟩

instance (topics : List Str) : IsTotal ArticleEntry (rankDescR topics) :=
  ⟨fun a b => by
    unfold rankDescR
    rcases Nat.lt_trichotomy (matchCount topics a) (matchCount topics b) with h | h | h
    · right; left; exact h
    · have hd : dateLeB b.published_at a.published_at = true ∨
          dateLeB a.published_at b.published_at = true := by
        rcases a.published_at with _ | x <;> rcases b.published_at with _ | y <;>
          simp [dateLeB] <;> omega
      rcases hd with hd | hd
      · left; right; exact ⟨h, hd⟩
      · right; right; exact ⟨h.symm, hd⟩
    · left; left; exact h⟩

instance (topics : List Str) : IsTrans ArticleEntry (rankDescR topics) :=
  ⟨fun a b c hab hbc => by
    unfold rankDescR at *
    have hdt : ∀ x y z : Option Int, dateLeB x y = true → dateLeB y z = true →
        dateLeB x z = true := by
      intro x y z hxy hyz
      rcases x with _ | x <;> rcases y with _ | y <;> rcases z with _ | z <;>
        simp_all [dateLeB] <;> omega
    rcases hab with hab | ⟨hab1, hab2⟩ <;> rcases hbc with hbc | ⟨hbc1, hbc2⟩
    · left; exact lt_trans hbc hab
    · left; rw [← hbc1]; exact hab
    · left; rw [hab1]; exact hbc
    · right; exact ⟨hab1.trans hbc1, hdt _ _ _ hbc2 hab2⟩⟩

/-- 0 or a negative limit is unbounded; otherwise truncate. -/
def applyLimit (limit : Int) (l : List ArticleEntry) : List ArticleEntry :=
  if 0 < limit then l.take limit.toNat else l

/-- `get_matching_articles(topics, from_date, to_date, sort_by_match,
limit)`: empty topics sorts the date-filtered corpus by date descending
regardless of `sort_by_match`; otherwise the articles sharing a topic
with the request are sorted either by match count (descending, date
descending tie-break) or by date descending. -/
def get_matching_articles (corpus : List ArticleEntry) (topics : List Str)
    (from_date to_date : Option Int) (sort_by_match : Bool) (limit : Int) :
    List ArticleEntry :=
  let dateFiltered := corpus.filter
    (fun a => matchesDateRange from_date to_date a.published_at)
  if topics = [] then
    applyLimit limit (List.insertionSort dateDescR dateFiltered)
  else if sort_by_match then
    applyLimit limit (List.insertionSort (rankDescR topics)
      (dateFiltered.filter (topicsIntersectB topics)))
  else
    applyLimit limit (List.insertionSort dateDescR
      (dateFiltered.filter (topicsIntersectB topics)))

/-! ## Demonstration data for witnesses and counterexamples -/

/-- A fetch collaborator that always fails (network error / disabled). -/
def demoFetchNone : Str → Option Str := fun _ => none

/-- A fetch collaborator that always returns a fixed page text. -/
def demoFetchBody : Str → Option Str := fun _ => some (str "fetched body text")

/-- A two-topic dictionary in the shape of `TOPIC_KEYWORDS`. -/
def demoDict : TopicDict :=
  [(str "ai", [str "ai", str "machine learning"]),
   (str "marketing", [str "marketing", str "gdpr compliance"])]

/-- A complete article mentioning machine learning. -/
def demoArticle : ArticleEntry :=
  { author := str "Ann", title := str "Machine learning wins",
    description := str "machine learning study", url := str "http://x",
    published_at := some 100, content_head := str "body text",
    content_size := 1200, source := str "src" }

/-- An article whose title contains the keyword `"ai"` once. -/
def c10Article : ArticleEntry :=
  { title := str "ai news now", description := str "x",
    content_head := str "y", url := str "u" }

/-- An article whose author is whitespace-only but is otherwise filled. -/
def c9Incomplete : ArticleEntry :=
  { author := str "  ", title := str "Tt", description := str "dd",
    url := str "uu", published_at := some 1, content_head := str "cc",
    content_size := 2000, source := str "ss" }

/-- A complete article whose 31-character title is all markup plus a
14-character headline: it passes the title gate before stripping but its
stripped title is shorter than the default minimum of 15. -/
def c5MarkupArticle : ArticleEntry :=
  { author := str "Al", title := str "<strong>Valid headline</strong>",
    description := str "desc", url := str "u", published_at := some 3,
    content_head := str "some body", content_size := 1000, source := str "s" }

/-- Classified article with two matching topics, older. -/
def mArticleA : ArticleEntry :=
  { title := str "A", url := str "a", published_at := some 5,
    topics := [str "ai", str "science"] }

/-- Classified article with one matching topic, newer. -/
def mArticleB : ArticleEntry :=
  { title := str "B", url := str "b", published_at := some 10,
    topics := [str "ai"] }

/-- A small stored corpus (most recent first not guaranteed). -/
def mCorpus : List ArticleEntry := [mArticleB, mArticleA]

/-! # Theorems -/

/-! ## Scorer lemmas and claim C1 -/

theorem getLast?_cons_isSome : ∀ (x : Char) (xs : Str), ((x :: xs).getLast?).isSome = true := by
  intro x xs
  induction xs generalizing x with
  | nil => rfl
  | cons y ys ih => rw [List.getLast?_cons_cons]; exact ih y

theorem getLast?_cons_some (c : Char) (l : Str) (d : Char) (h : l.getLast? = some d) :
    (c :: l).getLast? = some d := by
  cases l with
  | nil => simp at h
  | cons x xs => rw [List.getLast?_cons_cons]; exact h

theorem lookBehind_zero (prev : Option Char) (text : Str) :
    lookBehind prev text 0 = prev := by
  simp [lookBehind]

theorem lookBehind_succ (prev : Option Char) (c : Char) (rest : Str) (i : Nat) :
    lookBehind prev (c :: rest) (i + 1) = lookBehind (some c) rest i := by
  unfold lookBehind
  rw [List.take_succ_cons]
  cases h : (List.take i rest).getLast? with
  | some d => rw [getLast?_cons_some c _ d h]
  | none =>
    have hnil : List.take i rest = [] := by
      cases ht : List.take i rest with
      | nil => rfl
      | cons x xs =>
        rw [ht] at h
        have := getLast?_cons_isSome x xs
        rw [h] at this
        simp at this
    rw [hnil]
    rfl

theorem boundaryAtP_zero (term : Str) (prev : Option Char) (text : Str) :
    boundaryAtP term prev text 0 = matchesAt term prev text := by
  unfold boundaryAtP matchesAt
  rw [List.drop_zero, lookBehind_zero, Nat.zero_add]

theorem boundaryAtP_succ (term : Str) (prev : Option Char) (c : Char) (rest : Str) (i : Nat) :
    boundaryAtP term prev (c :: rest) (i + 1) = boundaryAtP term (some c) rest i := by
  unfold boundaryAtP
  rw [List.drop_succ_cons, lookBehind_succ]
  have h : i + 1 + term.length = (i + term.length) + 1 := by omega
  rw [h, List.drop_succ_cons]

theorem countAux_cons (term : Str) (prev : Option Char) (c : Char) (rest : Str) :
    countAux term 0 prev (c :: rest) =
      if matchesAt term prev (c :: rest) = true then
        1 + countAux term (term.length - 1) (some c) rest
      else countAux term 0 (some c) rest := rfl

/-- The scan of `countAux` finds no match exactly when no whole-word
occurrence exists. -/
theorem countAux_zero_iff (term : Str) (hterm : term ≠ []) :
    ∀ (text : Str) (prev : Option Char),
      countAux term 0 prev text = 0 ↔ ∀ i, boundaryAtP term prev text i = false := by
  intro text
  induction text with
  | nil =>
    intro prev
    constructor
    · intro _ i
      have h1 : term.isPrefixOf ([] : Str) = false := by
        cases term with
        | nil => exact absurd rfl hterm
        | cons t ts => rfl
      unfold boundaryAtP
      rw [List.drop_nil, h1]
      simp
    · intro _
      rfl
  | cons c rest ih =>
    intro prev
    by_cases hm : matchesAt term prev (c :: rest) = true
    · constructor
      · intro h0
        exfalso
        rw [countAux_cons, if_pos hm] at h0
        simp at h0
      · intro hall
        exfalso
        have h0 := hall 0
        rw [boundaryAtP_zero, hm] at h0
        simp at h0
    · have hm' : matchesAt term prev (c :: rest) = false := by
        simpa using hm
      have hstep : countAux term 0 prev (c :: rest) = countAux term 0 (some c) rest := by
        rw [countAux_cons, if_neg hm]
      rw [hstep, ih (some c)]
      constructor
      · intro hall i
        cases i with
        | zero => rw [boundaryAtP_zero]; exact hm'
        | succ j => rw [boundaryAtP_succ]; exact hall j
      · intro hall j
        have h := hall (j + 1)
        rw [boundaryAtP_succ] at h
        exact h

/-- The scan of `countAux` finds a match exactly when some whole-word
occurrence exists. -/
theorem countAux_pos_iff (term : Str) (hterm : term ≠ []) (text : Str) (prev : Option Char) :
    0 < countAux term 0 prev text ↔ ∃ i, boundaryAtP term prev text i = true := by
  rw [Nat.pos_iff_ne_zero]
  constructor
  · intro h
    by_contra hex
    push_neg at hex
    exact h ((countAux_zero_iff term hterm text prev).mpr
      (fun i => by simpa using hex i))
  · rintro ⟨i, hi⟩ h0
    have h := (countAux_zero_iff term hterm text prev).mp h0 i
    rw [hi] at h
    simp at h

theorem lowerStr_ne_nil {term : Str} (h : term ≠ []) : lowerStr term ≠ [] := by
  intro hc
  exact h (List.map_eq_nil_iff.mp hc)

/-- C1: the Scorer counts only whole-word, case-insensitive,
non-overlapping occurrences.  It returns 0 for an empty text or an empty
keyword list; a single keyword scores positively exactly when it has a
whole-word occurrence (one neither preceded nor followed by a word
character) in the lower-cased text; in particular `"ai"` scores 0 in
`"said"` and `"fail"` and 1 in `"AI-driven"`. -/
theorem C1_scorer_whole_word :
    (∀ keywords, score_keywords keywords [] = 0) ∧
    (∀ text, score_keywords [] text = 0) ∧
    (∀ term text, term ≠ [] →
      (0 < score_keywords [term] text ↔ hasBoundaryOcc (lowerStr term) (lowerStr text))) ∧
    score_keywords [str "ai"] (str "said") = 0 ∧
    score_keywords [str "ai"] (str "fail") = 0 ∧
    score_keywords [str "ai"] (str "AI-driven") = 1 := by
  refine ⟨?_, ?_, ?_, by decide, by decide, by decide⟩
  · intro kws
    simp [score_keywords]
  · intro text
    simp [score_keywords]
  · intro term text hterm
    have hlt : lowerStr term ≠ [] := lowerStr_ne_nil hterm
    by_cases htext : text = []
    · subst htext
      constructor
      · intro h
        simp [score_keywords] at h
      · rintro ⟨i, hi⟩
        have hz : countAux (lowerStr term) 0 none (lowerStr []) = 0 := rfl
        have h := (countAux_zero_iff (lowerStr term) hlt (lowerStr []) none).mp hz i
        rw [hi] at h
        simp at h
    · have hs : score_keywords [term] text = countAux (lowerStr term) 0 none (lowerStr text) := by
        simp [score_keywords, htext, hterm]
      rw [hs]
      exact countAux_pos_iff (lowerStr term) hlt (lowerStr text) none

theorem C1_scorer_whole_word_witness :
    (str "ai" ≠ []) ∧
    (0 < score_keywords [str "ai"] (str "AI-driven") ↔
      hasBoundaryOcc (lowerStr (str "ai")) (lowerStr (str "AI-driven"))) :=
  ⟨by decide, C1_scorer_whole_word.2.2.1 (str "ai") (str "AI-driven") (by decide)⟩

/-! ## Classifier claims C2, C8, C10 -/

/-- C2: for every article reaching the Classifier and every topic of the
dictionary, the topic is assigned iff its keyword score reaches the
threshold; no topic outside the dictionary is ever assigned; and the
output sequence keeps every article (in order), so zero-topic articles
are retained. -/
theorem C2_classifier_assignment :
    ∀ (d : TopicDict) (threshold : Int) (gft : Bool) (fetch : Str → Option Str)
      (l : List ArticleEntry) (a : ArticleEntry) (topic : Str),
    (topic ∈ get_topics d →
      (topic ∈ (classifyArticle d threshold gft fetch a).topics ↔
        threshold ≤ (topic_score (get_keywords d topic) gft fetch a : Int))) ∧
    (topic ∈ (classifyArticle d threshold gft fetch a).topics → topic ∈ get_topics d) ∧
    (classifyArticles d threshold gft fetch l).length = l.length ∧
    (∀ i : Nat, (classifyArticles d threshold gft fetch l)[i]? =
      (l[i]?).map (classifyArticle d threshold gft fetch)) := by
  intro d threshold gft fetch l a topic
  refine ⟨?_, ?_, ?_, ?_⟩
  · intro htop
    simp [classifyArticle, List.mem_filter, htop]
  · intro hmem
    simp [classifyArticle, List.mem_filter] at hmem
    exact hmem.1
  · simp [classifyArticles]
  · intro i
    simp [classifyArticles, List.getElem?_map]

theorem C2_classifier_assignment_witness :
    (str "ai" ∈ get_topics demoDict) ∧
    (str "ai" ∈ (classifyArticle demoDict 2 false demoFetchNone demoArticle).topics ↔
      2 ≤ (topic_score (get_keywords demoDict (str "ai")) false demoFetchNone demoArticle : Int)) :=
  ⟨by decide,
    (C2_classifier_assignment demoDict 2 false demoFetchNone [] demoArticle (str "ai")).1
      (by decide)⟩

/-- C8: classification is antitone in the threshold: with `t1 ≤ t2`,
every topic assigned under threshold `t2` is also assigned under `t1` —
raising the threshold can only remove assignments. -/
theorem C8_threshold_monotone :
    ∀ (d : TopicDict) (t1 t2 : Int) (gft : Bool) (fetch : Str → Option Str)
      (a : ArticleEntry) (topic : Str), t1 ≤ t2 →
      topic ∈ (classifyArticle d t2 gft fetch a).topics →
      topic ∈ (classifyArticle d t1 gft fetch a).topics := by
  intro d t1 t2 gft fetch a topic h12 hmem
  simp [classifyArticle, List.mem_filter] at hmem ⊢
  exact ⟨hmem.1, le_trans h12 hmem.2⟩

theorem C8_threshold_monotone_witness :
    ((1 : Int) ≤ 2) ∧
    (str "ai" ∈ (classifyArticle demoDict 2 false demoFetchNone demoArticle).topics) ∧
    (str "ai" ∈ (classifyArticle demoDict 1 false demoFetchNone demoArticle).topics) :=
  ⟨by decide, by decide,
    C8_threshold_monotone demoDict 1 2 false demoFetchNone demoArticle (str "ai")
      (by decide) (by decide)⟩

/-- C10: when full-text fetching is disabled, fails, or yields only
whitespace, the scored text is `"<title> <title> <description>
<contentHead>"` (the fallback body already starts with the title, and the
title is prepended again before scoring); with a successfully fetched
text `t` it is `"<title> <t>"`.  On the demonstration article, the single
keyword occurrence in the title hence counts twice in the fallback path
and once in the fetched path. -/
theorem C10_fallback_doubles_title :
    (∀ (gft : Bool) (fetch : Str → Option Str) (a : ArticleEntry),
      (gft = false →
        scoring_text gft fetch a =
          a.title ++ ' ' :: (a.title ++ ' ' :: (a.description ++ ' ' :: a.content_head))) ∧
      (gft = true → fetch a.url = none →
        scoring_text gft fetch a =
          a.title ++ ' ' :: (a.title ++ ' ' :: (a.description ++ ' ' :: a.content_head))) ∧
      (∀ t, gft = true → fetch a.url = some t → pyStrip t = [] →
        scoring_text gft fetch a =
          a.title ++ ' ' :: (a.title ++ ' ' :: (a.description ++ ' ' :: a.content_head))) ∧
      (∀ t, gft = true → fetch a.url = some t → pyStrip t ≠ [] →
        scoring_text gft fetch a = a.title ++ ' ' :: t)) ∧
    score_keywords [str "ai"] (scoring_text false demoFetchNone c10Article) = 2 ∧
    score_keywords [str "ai"] (scoring_text true demoFetchBody c10Article) = 1 := by
  refine ⟨?_, by decide, by decide⟩
  intro gft fetch a
  refine ⟨?_, ?_, ?_, ?_⟩
  · intro h
    subst h
    simp [scoring_text, get_full_text, fallback_text, pyStrip]
  · intro h hf
    subst h
    simp [scoring_text, get_full_text, hf, fallback_text]
  · intro t h hf hstrip
    subst h
    simp [scoring_text, get_full_text, hf, hstrip, fallback_text]
  · intro t h hf hstrip
    subst h
    have hlen : (pyStrip t).length ≠ 0 := by
      simpa [List.length_eq_zero] using hstrip
    simp [scoring_text, get_full_text, hf, hlen]

theorem C10_fallback_doubles_title_witness :
    (false = false) ∧
    scoring_text false demoFetchNone c10Article =
      c10Article.title ++ ' ' ::
        (c10Article.title ++ ' ' :: (c10Article.description ++ ' ' :: c10Article.content_head)) :=
  ⟨rfl, (C10_fallback_doubles_title.1 false demoFetchNone c10Article).1 rfl⟩

/-! ## Filter lemmas and claim C9 -/

theorem remove_incomplete_eq_filter (l : List ArticleEntry) :
    remove_incomplete_articles l = l.filter completeB := by
  unfold remove_incomplete_articles completeB
  simp only [List.filter_filter]

theorem filter_ne_of_not_pred {p : ArticleEntry → Bool} {a : ArticleEntry}
    (ha : p a = false) :
    ∀ l : List ArticleEntry, (l.filter (fun b => decide (b ≠ a))).filter p = l.filter p := by
  intro l
  rw [List.filter_filter]
  apply List.filter_congr
  intro x _
  by_cases hx : x = a
  · subst hx
    simp [ha]
  · simp [hx]

/-- C9: an article with an empty or whitespace-only required field, or an
absent `published_at`, is silently dropped: it never survives the
completeness filter (so it never reaches the Classifier), and the whole
pipeline result is the same as if the article had not been in the batch —
no error is raised (the pipeline is a total function).  An empty batch
yields the empty result. -/
theorem C9_incomplete_silently_dropped :
    ∀ (d : TopicDict) (threshold mcs mts : Int) (gft : Bool) (fetch : Str → Option Str)
      (raw : List ArticleEntry) (a : ArticleEntry),
    process_data d threshold mcs mts gft fetch [] = [] ∧
    (a.published_at = none ∨ pyStrip a.author = [] ∨ pyStrip a.title = [] ∨
        pyStrip a.description = [] ∨ pyStrip a.url = [] ∨ pyStrip a.source = [] ∨
        pyStrip a.content_head = [] →
      a ∉ remove_incomplete_articles raw ∧
      process_data d threshold mcs mts gft fetch raw =
        process_data d threshold mcs mts gft fetch
          (raw.filter (fun b => decide (b ≠ a)))) := by
  intro d threshold mcs mts gft fetch raw a
  refine ⟨rfl, ?_⟩
  intro h
  have hcomp : completeB a = false := by
    rcases h with h | h | h | h | h | h | h <;> simp [completeB, h]
  have h_ri : remove_incomplete_articles (raw.filter (fun b => decide (b ≠ a))) =
      remove_incomplete_articles raw := by
    rw [remove_incomplete_eq_filter, remove_incomplete_eq_filter,
      filter_ne_of_not_pred hcomp]
  refine ⟨?_, ?_⟩
  · rw [remove_incomplete_eq_filter]
    simp [List.mem_filter, hcomp]
  · by_cases hraw : raw = []
    · subst hraw
      rfl
    · simp only [process_data]
      rw [if_neg hraw]
      by_cases hraw2 : raw.filter (fun b => decide (b ≠ a)) = []
      · rw [if_pos hraw2]
        have h_ri0 : remove_incomplete_articles raw = [] := by
          rw [← h_ri, hraw2]
          rfl
        unfold articleFilter
        rw [h_ri0]
        rfl
      · rw [if_neg hraw2]
        unfold articleFilter
        rw [h_ri]

theorem C9_incomplete_silently_dropped_witness :
    (c9Incomplete.published_at = none ∨ pyStrip c9Incomplete.author = [] ∨
      pyStrip c9Incomplete.title = [] ∨ pyStrip c9Incomplete.description = [] ∨
      pyStrip c9Incomplete.url = [] ∨ pyStrip c9Incomplete.source = [] ∨
      pyStrip c9Incomplete.content_head = []) ∧
    (c9Incomplete ∉ remove_incomplete_articles [demoArticle, c9Incomplete] ∧
      process_data demoDict 2 1000 15 false demoFetchNone [demoArticle, c9Incomplete] =
        process_data demoDict 2 1000 15 false demoFetchNone
          ([demoArticle, c9Incomplete].filter (fun b => decide (b ≠ c9Incomplete)))) :=
  ⟨by decide,
    (C9_incomplete_silently_dropped demoDict 2 1000 15 false demoFetchNone
      [demoArticle, c9Incomplete] c9Incomplete).2 (by decide)⟩

/-! ## Provenance of filtered articles; claims C5 and C6 -/

/-- Every article surviving the ArticleFilter stage is the markup-scrub
of an input article that passed the completeness check and both quality
gates, the gates being evaluated on the pre-strip fields. -/
theorem mem_articleFilter {mcs mts : Int} {l : List ArticleEntry} {b : ArticleEntry}
    (hb : b ∈ articleFilter mcs mts l) :
    ∃ a, a ∈ l ∧ completeB a = true ∧ mcs ≤ a.content_size ∧
      mts ≤ (a.title.length : Int) ∧ b = scrubMarkup a := by
  unfold articleFilter filter_articles at hb
  rcases List.mem_map.mp hb with ⟨a, ha, hba⟩
  rcases List.mem_filter.mp ha with ⟨ha1, ht⟩
  rcases List.mem_filter.mp ha1 with ⟨ha2, hs⟩
  rw [remove_incomplete_eq_filter] at ha2
  rcases List.mem_filter.mp ha2 with ⟨hal, hcomp⟩
  exact ⟨a, hal, hcomp, by simpa using hs, by simpa using ht, hba.symm⟩

/-- C6 (amended): markup stripping is applied only to articles that
already passed the completeness check and the size/title gates, and those
gates read the pre-strip `title` and the stored `content_size`; the
`content_size` of a surviving article is carried over unchanged from the
pre-strip computation, so stripped tag bytes stay included in it (they
are not excluded, and the size is never recomputed after stripping). -/
theorem C6_strip_after_gates :
    ∀ (mcs mts : Int) (l : List ArticleEntry) (b : ArticleEntry),
      b ∈ articleFilter mcs mts l →
      ∃ a, a ∈ l ∧ completeB a = true ∧
        mcs ≤ a.content_size ∧ mts ≤ (a.title.length : Int) ∧
        b.title = stripHtml a.title ∧ b.description = stripHtml a.description ∧
        b.content_head = stripHtml a.content_head ∧
        b.content_size = a.content_size ∧ b.published_at = a.published_at := by
  intro mcs mts l b hb
  rcases mem_articleFilter hb with ⟨a, hal, hcomp, hsz, hti, hba⟩
  subst hba
  exact ⟨a, hal, hcomp, hsz, hti, rfl, rfl, rfl, rfl, rfl⟩

/-- C6 counterexample: the derived content size of `"<b>Hello</b>"` is
12 — it counts the 7 bytes of the tags that stripping later removes —
while the stripped text `"Hello"` has only 5 bytes.  `contentSize` does
count bytes of stripped tags, contradicting the claim's parenthetical. -/
theorem C6_content_size_counts_tag_bytes :
    get_content_size (str "<b>Hello</b>") = 12 ∧
    utf8Length (stripHtml (str "<b>Hello</b>")) = 5 := by
  decide

theorem C6_strip_after_gates_witness :
    (scrubMarkup c5MarkupArticle ∈ articleFilter 1000 15 [c5MarkupArticle]) ∧
    (∃ a, a ∈ [c5MarkupArticle] ∧ completeB a = true ∧
      (1000 : Int) ≤ a.content_size ∧ (15 : Int) ≤ (a.title.length : Int) ∧
      (scrubMarkup c5MarkupArticle).title = stripHtml a.title ∧
      (scrubMarkup c5MarkupArticle).description = stripHtml a.description ∧
      (scrubMarkup c5MarkupArticle).content_head = stripHtml a.content_head ∧
      (scrubMarkup c5MarkupArticle).content_size = a.content_size ∧
      (scrubMarkup c5MarkupArticle).published_at = a.published_at) :=
  ⟨by decide,
    C6_strip_after_gates 1000 15 [c5MarkupArticle] (scrubMarkup c5MarkupArticle) (by decide)⟩

theorem map_eq_self_of_mem {f : ArticleEntry → ArticleEntry} :
    ∀ l : List ArticleEntry, (∀ a ∈ l, f a = a) → l.map f = l := by
  intro l
  induction l with
  | nil => intro _; rfl
  | cons x t ih =>
    intro h
    simp only [List.map_cons]
    rw [h x (by simp), ih (fun a ha => h a (by simp [ha]))]

/-- C5 counterexample: running ArticleFilter twice is not the identity on
its own output.  `c5MarkupArticle` survives the first pass (its pre-strip
title has 31 characters), but stripping shrinks the title to 14
characters, so the second pass drops it at the title gate. -/
theorem C5_filter_not_idempotent_cex :
    (articleFilter 1000 15 [c5MarkupArticle]).length = 1 ∧
    (articleFilter 1000 15 (articleFilter 1000 15 [c5MarkupArticle])).length = 0 := by
  decide

/-- C5 (amended): a second ArticleFilter pass keeps the output unchanged
provided stripping already fixes every surviving article's `title`,
`description` and `content_head`, those fields are not whitespace-only,
and the (stripped) title still meets the length gate — e.g. whenever the
kept articles contain no markup.  When stripping shrinks a title below
`MinTitleSize` or empties a field, the second pass can drop further
articles, as the counterexample shows. -/
theorem C5_filter_idempotent_when_strip_fixed :
    ∀ (mcs mts : Int) (l : List ArticleEntry),
      (∀ a ∈ articleFilter mcs mts l,
        stripHtml a.title = a.title ∧ stripHtml a.description = a.description ∧
        stripHtml a.content_head = a.content_head ∧
        pyStrip a.title ≠ [] ∧ pyStrip a.description ≠ [] ∧ pyStrip a.content_head ≠ [] ∧
        mts ≤ (a.title.length : Int)) →
      articleFilter mcs mts (articleFilter mcs mts l) = articleFilter mcs mts l := by
  intro mcs mts l h
  have hmem : ∀ b ∈ articleFilter mcs mts l,
      completeB b = true ∧ mcs ≤ b.content_size := by
    intro b hb
    rcases mem_articleFilter hb with ⟨a, _, hcomp, hsz, _, hba⟩
    rcases h b hb with ⟨_, _, _, hpti, hpde, hpch, _⟩
    constructor
    · simp only [completeB, Bool.and_eq_true] at hcomp ⊢
      subst hba
      simp only [scrubMarkup] at hpti hpde hpch ⊢
      refine ⟨hcomp.1, hcomp.2.1, ?_, hcomp.2.2.2.1, ?_, ?_, hcomp.2.2.2.2.2.2⟩
      · simpa using hpde
      · simpa using hpti
      · simpa using hpch
    · subst hba
      exact hsz
  have h1 : remove_incomplete_articles (articleFilter mcs mts l) = articleFilter mcs mts l := by
    rw [remove_incomplete_eq_filter]
    exact List.filter_eq_self.mpr (fun a ha => (hmem a ha).1)
  have h2 : (articleFilter mcs mts l).filter (fun a => decide (mcs ≤ a.content_size)) =
      articleFilter mcs mts l :=
    List.filter_eq_self.mpr (fun a ha => by simpa using (hmem a ha).2)
  have h3 : (articleFilter mcs mts l).filter (fun a => decide (mts ≤ (a.title.length : Int))) =
      articleFilter mcs mts l :=
    List.filter_eq_self.mpr (fun a ha => by simpa using (h a ha).2.2.2.2.2.2)
  have h4 : (articleFilter mcs mts l).map scrubMarkup = articleFilter mcs mts l := by
    apply map_eq_self_of_mem
    intro a ha
    rcases h a ha with ⟨hti, hde, hch, _, _, _, _⟩
    unfold scrubMarkup
    rw [hti, hde, hch]
  conv_lhs => rw [articleFilter, filter_articles, h1, h2, h3, h4]

theorem C5_filter_idempotent_when_strip_fixed_witness :
    (∀ a ∈ articleFilter 1000 15 [demoArticle],
      stripHtml a.title = a.title ∧ stripHtml a.description = a.description ∧
      stripHtml a.content_head = a.content_head ∧
      pyStrip a.title ≠ [] ∧ pyStrip a.description ≠ [] ∧ pyStrip a.content_head ≠ [] ∧
      (15 : Int) ≤ (a.title.length : Int)) ∧
    articleFilter 1000 15 (articleFilter 1000 15 [demoArticle]) =
      articleFilter 1000 15 [demoArticle] :=
  ⟨by decide, C5_filter_idempotent_when_strip_fixed 1000 15 [demoArticle] (by decide)⟩

/-! ## Content-size lemmas and claim C4 -/

theorem afterLastGo_nil (sep : Str) (skip : Nat) (best : Str) :
    afterLastGo sep skip best [] = best := by
  cases skip <;> rfl

theorem afterLastGo_succ (sep : Str) (k : Nat) (best : Str) (c : Char) (rest : Str) :
    afterLastGo sep (k + 1) best (c :: rest) = afterLastGo sep k best rest := rfl

theorem afterLastGo_zero (sep : Str) (best : Str) (c : Char) (rest : Str) :
    afterLastGo sep 0 best (c :: rest) =
      if sep.isPrefixOf (c :: rest) = true then
        afterLastGo sep (sep.length - 1) ((c :: rest).drop sep.length) rest
      else afterLastGo sep 0 best rest := rfl

/-- A text without `'['` contains no occurrence of the separator `"[+"`,
so the scan never updates its result. -/
theorem afterLastGo_no_bracket (rest : Str) (h : ∀ c ∈ rest, c ≠ '[') :
    ∀ (skip : Nat) (best : Str), afterLastGo ['[', '+'] skip best rest = best := by
  induction rest with
  | nil => intro skip best; exact afterLastGo_nil _ _ _
  | cons c r ih =>
    intro skip best
    have hr : ∀ x ∈ r, x ≠ '[' := fun x hx => h x (by simp [hx])
    cases skip with
    | succ k =>
      rw [afterLastGo_succ]
      exact ih hr k best
    | zero =>
      rw [afterLastGo_zero]
      have hpre : List.isPrefixOf ['[', '+'] (c :: r) = false := by
        have hc : ('[' == c) = false :=
          beq_eq_false_iff_ne.mpr (fun he => h c (by simp) he.symm)
        simp [List.isPrefixOf, hc]
      rw [hpre]
      simp only [Bool.false_eq_true, if_false]
      exact ih hr 0 best

/-- Arriving at an occurrence of `"[+"` followed by a bracket-free tail,
the scan returns that tail. -/
theorem afterLastGo_at_sep (rest best : Str) (h : ∀ c ∈ rest, c ≠ '[') :
    afterLastGo ['[', '+'] 0 best ('[' :: '+' :: rest) = rest := by
  rw [afterLastGo_zero]
  have hpre : List.isPrefixOf ['[', '+'] ('[' :: '+' :: rest) = true := by
    simp [List.isPrefixOf]
  rw [if_pos hpre]
  show afterLastGo ['[', '+'] 1 rest ('+' :: rest) = rest
  rw [afterLastGo_succ]
  exact afterLastGo_no_bracket rest h 0 rest

/-- When the text is `u ++ "[+" ++ rest` with `rest` bracket-free, the
last separator occurrence found by the left-to-right scan is the
displayed one, and the scan returns `rest`. -/
theorem afterLastGo_marker (rest : Str) (hrest : ∀ c ∈ rest, c ≠ '[') :
    ∀ (u best : Str), afterLastGo ['[', '+'] 0 best (u ++ '[' :: '+' :: rest) = rest := by
  suffices h : ∀ (n : Nat) (u best : Str), u.length ≤ n →
      afterLastGo ['[', '+'] 0 best (u ++ '[' :: '+' :: rest) = rest by
    exact fun u best => h u.length u best le_rfl
  intro n
  induction n with
  | zero =>
    intro u best hu
    have hu0 : u = [] := List.eq_nil_of_length_eq_zero (Nat.le_zero.mp hu)
    subst hu0
    exact afterLastGo_at_sep rest best hrest
  | succ n ih =>
    intro u best hu
    cases u with
    | nil => exact afterLastGo_at_sep rest best hrest
    | cons c u' =>
      rw [List.cons_append, afterLastGo_zero]
      by_cases hpre : List.isPrefixOf ['[', '+'] (c :: (u' ++ '[' :: '+' :: rest)) = true
      · rw [if_pos hpre]
        cases u' with
        | nil => simp [List.isPrefixOf] at hpre
        | cons d u'' =>
          show afterLastGo ['[', '+'] 1 (u'' ++ '[' :: '+' :: rest)
            (d :: (u'' ++ '[' :: '+' :: rest)) = rest
          rw [afterLastGo_succ]
          refine ih u'' (u'' ++ '[' :: '+' :: rest) ?_
          simp only [List.length_cons] at hu
          omega
      · rw [if_neg hpre]
        refine ih u' best ?_
        simp only [List.length_cons] at hu
        omega

/-- Characters of a digit run are ASCII digits: they are neither a
bracket, nor a space, nor Python whitespace, nor a sign. -/
theorem digit_props {c : Char} (h : c.isDigit = true) :
    c ≠ '[' ∧ isPySpace c = false ∧ c ≠ ' ' ∧ (c == '-') = false ∧ (c == '+') = false := by
  refine ⟨fun he => by subst he; exact absurd h (by decide), ?_,
    fun he => by subst he; exact absurd h (by decide), ?_, ?_⟩
  · cases hsp : isPySpace c
    · rfl
    · exfalso
      simp only [isPySpace, Bool.or_eq_true, beq_iff_eq] at hsp
      rcases hsp with ((((h' | h') | h') | h') | h') | h' <;> subst h' <;>
        exact absurd h (by decide)
  · exact beq_eq_false_iff_ne.mpr (fun he => by subst he; exact absurd h (by decide))
  · exact beq_eq_false_iff_ne.mpr (fun he => by subst he; exact absurd h (by decide))

theorem dropWhile_eq_self_of_all {p : Char → Bool} :
    ∀ {t : Str}, (∀ c ∈ t, p c = false) → t.dropWhile p = t := by
  intro t ht
  cases t with
  | nil => rfl
  | cons x xs =>
    rw [List.dropWhile_cons, if_neg]
    simp [ht x (by simp)]

theorem pyStrip_eq_self {s : Str} (h : ∀ c ∈ s, isPySpace c = false) : pyStrip s = s := by
  unfold pyStrip
  rw [dropWhile_eq_self_of_all h,
    dropWhile_eq_self_of_all (fun c hc => h c (List.mem_reverse.mp hc)),
    List.reverse_reverse]

theorem takeWhile_append_stop {p : Char → Bool} :
    ∀ (ds : Str), (∀ c ∈ ds, p c = true) → ∀ (y : Char) (l : Str), p y = false →
      (ds ++ y :: l).takeWhile p = ds := by
  intro ds
  induction ds with
  | nil =>
    intro _ y l hy
    simp [List.takeWhile_cons, hy]
  | cons c t ih =>
    intro h y l hy
    rw [List.cons_append, List.takeWhile_cons, if_pos (h c (by simp)),
      ih (fun a ha => h a (by simp [ha])) y l hy]

theorem parseDigitsGo_cons_false (acc : Nat) (c : Char) (rest : Str) :
    parseDigitsGo acc false (c :: rest) =
      if c.isDigit = true then parseDigitsGo (10 * acc + (c.toNat - 48)) false rest
      else if (c == '_') = true then parseDigitsGo acc true rest
      else none := rfl

theorem parseDigitsGo_all_digits :
    ∀ (s : Str) (acc : Nat), (∀ c ∈ s, c.isDigit = true) →
      parseDigitsGo acc false s =
        some (s.foldl (fun a c => 10 * a + (c.toNat - 48)) acc) := by
  intro s
  induction s with
  | nil => intro acc _; rfl
  | cons c t ih =>
    intro acc h
    rw [parseDigitsGo_cons_false, if_pos (h c (by simp)),
      ih _ (fun a ha => h a (by simp [ha])), List.foldl_cons]

theorem parseIntCore_cons (c : Char) (rest : Str) :
    parseIntCore (c :: rest) =
      if (c == '-') = true then parseSignedTail true rest
      else if (c == '+') = true then parseSignedTail false rest
      else if c.isDigit = true then
        (parseDigitsGo (c.toNat - 48) false rest).map (fun n => (n : Int))
      else none := rfl

theorem parseIntCore_cons_digit {c : Char} (rest : Str) (hc : c.isDigit = true) :
    parseIntCore (c :: rest) =
      (parseDigitsGo (c.toNat - 48) false rest).map (fun n => (n : Int)) := by
  rcases digit_props hc with ⟨_, _, _, hm, hp⟩
  rw [parseIntCore_cons, hm, hp]
  simp [hc]

/-- `int(...)` succeeds on a non-empty run of ASCII digits and returns
its value. -/
theorem parseIntPy_digits (ds : Str) (hne : ds ≠ []) (hds : ∀ c ∈ ds, c.isDigit = true) :
    parseIntPy ds = some ((digitsVal ds : Nat) : Int) := by
  unfold parseIntPy
  rw [pyStrip_eq_self (fun c hc => (digit_props (hds c hc)).2.1)]
  cases ds with
  | nil => exact absurd rfl hne
  | cons c rest =>
    rw [parseIntCore_cons_digit rest (hds c (by simp)),
      parseDigitsGo_all_digits rest _ (fun a ha => hds a (by simp [ha]))]
    unfold digitsVal
    rw [List.foldl_cons]
    simp

/-- The trailing text `"<digits> chars]"` is bracket-free. -/
theorem marker_tail_no_bracket (ds : Str) (hds : ∀ c ∈ ds, c.isDigit = true) :
    ∀ c ∈ ds ++ str " chars]", c ≠ '[' := by
  intro c hc
  rcases List.mem_append.mp hc with h | h
  · exact (digit_props (hds c h)).1
  · have hall : ∀ x ∈ str " chars]", x ≠ '[' := by decide
    exact hall c h

/-- The code adds exactly `<digits>` whenever the text ends with a
well-formed marker `"[+<digits> chars]"`. -/
theorem get_content_size_marker (u ds : Str) (hne : ds ≠ [])
    (hds : ∀ c ∈ ds, c.isDigit = true) :
    get_content_size (u ++ '[' :: '+' :: (ds ++ str " chars]")) =
      (utf8Length (u ++ '[' :: '+' :: (ds ++ str " chars]")) : Int) +
        ((digitsVal ds : Nat) : Int) := by
  have hlast : (u ++ '[' :: '+' :: (ds ++ str " chars]")).getLast? = some ']' := by
    rw [List.getLast?_append]
    have h2 : ('[' :: '+' :: (ds ++ str " chars]")).getLast? = some ']' := by
      rw [show ('[' :: '+' :: (ds ++ str " chars]")) =
        ('[' :: '+' :: ds) ++ str " chars]" by simp, List.getLast?_append]
      rfl
    rw [h2]
    rfl
  have hafter : afterLastSep ['[', '+'] (u ++ '[' :: '+' :: (ds ++ str " chars]")) =
      ds ++ str " chars]" := by
    unfold afterLastSep
    exact afterLastGo_marker (ds ++ str " chars]") (marker_tail_no_bracket ds hds) u _
  have htake : (ds ++ str " chars]").takeWhile (fun c => !(c == ' ')) = ds := by
    rw [show str " chars]" = ' ' :: str "chars]" from rfl]
    refine takeWhile_append_stop ds ?_ ' ' (str "chars]") (by decide)
    intro c hc
    simp [beq_eq_false_iff_ne.mpr (digit_props (hds c hc)).2.2.1]
  unfold get_content_size
  rw [if_pos hlast, hafter, htake, parseIntPy_digits ds hne hds]

/-- C4 counterexample: `"ab [+5 x]"` ends with `]` and the token after
the last `"[+"` parses as 5, so the code yields 9 + 5 = 14 — yet the text
carries no marker of the claimed form `"[+<digits> chars]"`, under which
the size would have to be the bare byte length 9. -/
theorem C4_content_size_cex :
    get_content_size (str "ab [+5 x]") = 14 ∧
    claimContentSize (str "ab [+5 x]") = 9 ∧
    truncMarkerValue? (str "ab [+5 x]") = none := by
  decide

/-- C4 (amended): `contentSize` is the UTF-8 byte length of
`contentHead`, plus the integer parsed from the token between the last
`"[+"` and the following space whenever the text ends with `]` and that
token parses (in particular a well-formed trailing marker
`"[+<digits> chars]"` always contributes its `<digits>`); the word
`"chars"` is never verified, so any parsable `"[+<int> ...]"` tail is
added as well.  A text not ending in `]`, or an unparsable token, leaves
the byte length unchanged without raising an error. -/
theorem C4_content_size_derivation :
    (∀ (u ds : Str), ds ≠ [] → (∀ c ∈ ds, c.isDigit = true) →
      get_content_size (u ++ '[' :: '+' :: (ds ++ str " chars]")) =
        (utf8Length (u ++ '[' :: '+' :: (ds ++ str " chars]")) : Int) +
          ((digitsVal ds : Nat) : Int)) ∧
    (∀ s : Str, s.getLast? ≠ some ']' → get_content_size s = (utf8Length s : Int)) ∧
    (∀ s : Str,
      parseIntPy ((afterLastSep ['[', '+'] s).takeWhile (fun c => !(c == ' '))) = none →
      get_content_size s = (utf8Length s : Int)) := by
  refine ⟨get_content_size_marker, ?_, ?_⟩
  · intro s h
    unfold get_content_size
    rw [if_neg h]
  · intro s h
    unfold get_content_size
    by_cases hl : s.getLast? = some ']'
    · rw [if_pos hl, h]
    · rw [if_neg hl]

theorem C4_content_size_derivation_witness :
    (str "1200" ≠ []) ∧ (∀ c ∈ str "1200", c.isDigit = true) ∧
    get_content_size (str "Hello world... " ++ '[' :: '+' :: (str "1200" ++ str " chars]")) =
      (utf8Length (str "Hello world... " ++ '[' :: '+' :: (str "1200" ++ str " chars]")) : Int) +
        ((digitsVal (str "1200") : Nat) : Int) :=
  ⟨by decide, by decide,
    C4_content_size_derivation.1 (str "Hello world... ") (str "1200") (by decide) (by decide)⟩

/-! ## RankedMatcher claims C3 and C7 -/

/-- C3: with a non-empty requested topic set and ranking enabled, every
result comes from the corpus and shares a topic with the request;
adjacent results are ordered by match count descending with
`published_at` descending as tie-break; and a positive limit truncates
the result. -/
theorem C3_rank_by_match :
    ∀ (corpus : List ArticleEntry) (topics : List Str) (fd td : Option Int) (lim : Int),
      topics ≠ [] →
      (∀ a ∈ get_matching_articles corpus topics fd td true lim,
        a ∈ corpus ∧ topicsIntersectB topics a = true) ∧
      List.Chain' (rankDescR topics) (get_matching_articles corpus topics fd td true lim) ∧
      (0 < lim →
        (get_matching_articles corpus topics fd td true lim).length ≤ lim.toNat) := by
  intro corpus topics fd td lim htop
  have hbranch : get_matching_articles corpus topics fd td true lim =
      applyLimit lim (List.insertionSort (rankDescR topics)
        ((corpus.filter (fun a => matchesDateRange fd td a.published_at)).filter
          (topicsIntersectB topics))) := by
    unfold get_matching_articles
    rw [if_neg htop]
    rfl
  refine ⟨?_, ?_, ?_⟩
  · intro a ha
    rw [hbranch] at ha
    have ha' : a ∈ List.insertionSort (rankDescR topics)
        ((corpus.filter (fun a => matchesDateRange fd td a.published_at)).filter
          (topicsIntersectB topics)) := by
      unfold applyLimit at ha
      by_cases hl : 0 < lim
      · rw [if_pos hl] at ha
        exact (List.take_subset _ _) ha
      · rw [if_neg hl] at ha
        exact ha
    have ha2 := (List.perm_insertionSort (rankDescR topics) _).mem_iff.mp ha'
    rcases List.mem_filter.mp ha2 with ⟨haf, hat⟩
    exact ⟨List.mem_of_mem_filter haf, hat⟩
  · rw [hbranch]
    have hs := List.sorted_insertionSort (rankDescR topics)
      ((corpus.filter (fun a => matchesDateRange fd td a.published_at)).filter
        (topicsIntersectB topics))
    unfold applyLimit
    by_cases hl : 0 < lim
    · rw [if_pos hl]
      exact (List.Pairwise.sublist (List.take_sublist _ _) hs).chain'
    · rw [if_neg hl]
      exact hs.chain'
  · intro hl
    rw [hbranch]
    unfold applyLimit
    rw [if_pos hl, List.length_take]
    exact min_le_left _ _

theorem C3_rank_by_match_witness :
    ([str "ai", str "science"] ≠ ([] : List Str)) ∧
    ((∀ a ∈ get_matching_articles mCorpus [str "ai", str "science"] none none true 10,
        a ∈ mCorpus ∧ topicsIntersectB [str "ai", str "science"] a = true) ∧
      List.Chain' (rankDescR [str "ai", str "science"])
        (get_matching_articles mCorpus [str "ai", str "science"] none none true 10) ∧
      ((0 : Int) < 10 →
        (get_matching_articles mCorpus [str "ai", str "science"] none none true 10).length ≤
          (10 : Int).toNat)) :=
  ⟨by decide,
    C3_rank_by_match mCorpus [str "ai", str "science"] none none 10 (by decide)⟩

/-- C7: with an empty requested topic set the `sort_by_match` flag has no
effect — both queries return the date-filtered corpus sorted by
`published_at` descending; a non-positive limit returns all of it (a
permutation of the date filter), a positive limit truncates. -/
theorem C7_empty_topics_flag_ignored :
    ∀ (corpus : List ArticleEntry) (fd td : Option Int) (lim : Int),
      get_matching_articles corpus [] fd td true lim =
        get_matching_articles corpus [] fd td false lim ∧
      List.Chain' dateDescR (get_matching_articles corpus [] fd td true lim) ∧
      (lim ≤ 0 →
        (get_matching_articles corpus [] fd td true lim).Perm
          (corpus.filter (fun a => matchesDateRange fd td a.published_at))) ∧
      (0 < lim →
        get_matching_articles corpus [] fd td true lim =
          (List.insertionSort dateDescR
            (corpus.filter (fun a => matchesDateRange fd td a.published_at))).take
            lim.toNat) := by
  intro corpus fd td lim
  have hbranch : ∀ b : Bool, get_matching_articles corpus [] fd td b lim =
      applyLimit lim (List.insertionSort dateDescR
        (corpus.filter (fun a => matchesDateRange fd td a.published_at))) := by
    intro b
    rfl
  refine ⟨by rw [hbranch, hbranch], ?_, ?_, ?_⟩
  · rw [hbranch]
    have hs := List.sorted_insertionSort dateDescR
      (corpus.filter (fun a => matchesDateRange fd td a.published_at))
    unfold applyLimit
    by_cases hl : 0 < lim
    · rw [if_pos hl]
      exact (List.Pairwise.sublist (List.take_sublist _ _) hs).chain'
    · rw [if_neg hl]
      exact hs.chain'
  · intro hl
    rw [hbranch]
    unfold applyLimit
    rw [if_neg (by omega : ¬ (0 : Int) < lim)]
    exact List.perm_insertionSort _ _
  · intro hl
    rw [hbranch]
    unfold applyLimit
    rw [if_pos hl]

theorem C7_empty_topics_flag_ignored_witness :
    (get_matching_articles mCorpus [] none none true 0 =
      get_matching_articles mCorpus [] none none false 0) ∧
    List.Chain' dateDescR (get_matching_articles mCorpus [] none none true 0) ∧
    ((0 : Int) ≤ 0) ∧
    (get_matching_articles mCorpus [] none none true 0).Perm
      (mCorpus.filter (fun a => matchesDateRange none none a.published_at)) :=
  ⟨(C7_empty_topics_flag_ignored mCorpus none none 0).1,
    (C7_empty_topics_flag_ignored mCorpus none none 0).2.1,
    by decide,
    (C7_empty_topics_flag_ignored mCorpus none none 0).2.2.1 (by decide)⟩

end NewsFeed
